import Mathlib

/- Verification of chicken.py: a release-publishing pipeline that validates
   artifact file names, encrypts them with pgp, and uploads them over FTP.
   The definitions below are a shallow embedding of src/chicken.py; external
   effects (filesystem, subprocess, FTP) are abstracted as boolean oracles
   and event traces. -/

namespace Chicken

/- Character classes of the pattern r"^[a-z0-9_-]+-([0-9]+).([0-9]+).lha"
   (line 56 of chicken.py).  isDotChar is the regex metacharacter `.`,
   which matches every character except a newline. -/

def isLabelChar (c : Char) : Bool :=
  decide ((97 ≤ c.toNat ∧ c.toNat ≤ 122) ∨ (48 ≤ c.toNat ∧ c.toNat ≤ 57) ∨ c = '_' ∨ c = '-')

def isDigitChar (c : Char) : Bool :=
  decide (48 ≤ c.toNat ∧ c.toNat ≤ 57)

def isDotChar (c : Char) : Bool :=
  decide (c ≠ '\n')

/- Backtracking engine for a greedy `+` over a character class, exactly as a
   backtracking regex engine treats `X+`: first try the maximal run of class
   characters, then shorten the run one character at a time (never below one)
   until the continuation succeeds. -/

def tryFrom {α : Type} (l : List Char) (cont : List Char → List Char → Option α) : Nat → Option α
  | 0 => none
  | k + 1 =>
    match cont (l.take (k + 1)) (l.drop (k + 1)) with
    | some x => some x
    | none => tryFrom l cont k

def tryGreedy {α : Type} (p : Char → Bool) (l : List Char)
    (cont : List Char → List Char → Option α) : Option α :=
  tryFrom l cont (l.takeWhile p).length

/- Continuation after the second captured group `([0-9]+)`: one `.` wildcard
   character, then the literal characters lha; the end is not anchored, so
   anything may follow. -/
def contRev (ver rev rest2 : List Char) : Option (List Char × List Char) :=
  match rest2 with
  | c2 :: rest3 =>
    if isDotChar c2 then
      match rest3 with
      | 'l' :: 'h' :: 'a' :: _ => some (ver, rev)
      | _ => none
    else none
  | [] => none

/- Continuation after the first captured group `([0-9]+)`: one `.` wildcard
   character, then the second group. -/
def contVer (ver rest1 : List Char) : Option (List Char × List Char) :=
  match rest1 with
  | c1 :: rest2 =>
    if isDotChar c1 then tryGreedy isDigitChar rest2 (contRev ver)
    else none
  | [] => none

/- Matches `([0-9]+).([0-9]+).lha` at the start of l, returning the two
   captured groups. -/
def matchTail (l : List Char) : Option (List Char × List Char) :=
  tryGreedy isDigitChar l contVer

/- Continuation after the label `[a-z0-9_-]+`: the literal '-' separator,
   then the numeric tail. -/
def contLabel (lab rest : List Char) : Option (List Char × List Char × List Char) :=
  match rest with
  | '-' :: rest1 =>
    match matchTail rest1 with
    | some (v, r) => some (lab, v, r)
    | none => none
  | _ => none

/- file_name_regex.match(name): anchored at the start only.  Returns the
   consumed label together with the two captured groups (match.group(1) and
   match.group(2)). -/
def pyMatch (l : List Char) : Option (List Char × List Char × List Char) :=
  tryGreedy isLabelChar l contLabel

/- int(s) on a string of ASCII digits. -/
def digitsToNat (l : List Char) : Nat :=
  l.foldl (fun a c => 10 * a + (c.toNat - 48)) 0

/- The numeric checks of valid_file_name (lines 227-248): leading-zero
   rejection for each group when its length exceeds one, then the range
   bounds 255 and 65535. -/
def checkGroups (ver rev : List Char) : Bool :=
  if decide (ver.length > 1) && (ver.headD ' ' == '0') then false
  else if decide (digitsToNat ver > 255) then false
  else if decide (rev.length > 1) && (rev.headD ' ' == '0') then false
  else if decide (digitsToNat rev > 65535) then false
  else true

/- valid_file_name (lines 218-250). -/
def valid_file_name (name : String) : Bool :=
  match pyMatch name.data with
  | none => false
  | some (_, ver, rev) => checkGroups ver rev

/- Modelled from the spec: the numeric side conditions in the spec's words,
   for one group: no leading zero (unless the group is exactly "0", that is,
   has length one) and the value is at most the bound. -/
def specNumOk (v : List Char) (bound : Nat) : Bool :=
  (decide (v.length = 1) || !(v.headD ' ' == '0')) && decide (digitsToNat v ≤ bound)

/- Modelled from the spec: the claim's validation predicate, anchored at
   both ends with literal '.' separators.  specValidAt l i j tests the
   decomposition with a label of length i and a version of length j; the
   outer any realises the existential over decompositions. -/
def specValidAt (l : List Char) (i j : Nat) : Bool :=
  let a := l.take i
  let v := (l.drop (i + 1)).take j
  let rlen := l.length - (i + 1 + j + 1 + 4)
  let r := (l.drop (i + 1 + j + 1)).take rlen
  (l == a ++ '-' :: (v ++ '.' :: (r ++ ['.', 'l', 'h', 'a']))) &&
    !a.isEmpty && a.all isLabelChar &&
    !v.isEmpty && v.all isDigitChar &&
    !r.isEmpty && r.all isDigitChar &&
    specNumOk v 255 && specNumOk r 65535

def specValid (s : String) : Bool :=
  let l := s.data
  (List.range (l.length + 1)).any (fun i =>
    (List.range (l.length + 1)).any (fun j => specValidAt l i j))

/- The numeric checks of valid_file_name split into one independent check
   per captured group. -/
def numCheck (v : List Char) (bound : Nat) : Bool :=
  if decide (v.length > 1) && (v.headD ' ' == '0') then false
  else decide (digitsToNat v ≤ bound)

/- Generic character-list utilities shared by the path and config models.
   splitOnChar is str.split(sep) for a one-character separator. -/
def splitOnChar (sep : Char) : List Char → List (List Char)
  | [] => [[]]
  | c :: rest =>
    let r := splitOnChar sep rest
    if c = sep then [] :: r
    else (c :: r.headD []) :: r.tail

/- Python whitespace, the character set used by str.split() and str.strip(). -/
def pyIsSpace (c : Char) : Bool :=
  c == ' ' || c == '\t' || c == '\n' || c == '\r' || c == Char.ofNat 11 || c == Char.ofNat 12

/- line.strip(): remove leading and trailing whitespace. -/
def stripPy (l : List Char) : List Char :=
  ((l.dropWhile pyIsSpace).reverse.dropWhile pyIsSpace).reverse

/- The whitespace removal of parse_config, the join of line.split(). -/
def stripAllWS (l : List Char) : List Char :=
  l.filter (fun c => !pyIsSpace c)

/- posixpath.normpath, the os.path.normpath used by the main loop on the
   non-Amiga platforms: collapse empty and '.' components, resolve '..'
   against preceding components, preserve the leading-slash count. -/
def normpathL (p : List Char) : List Char :=
  if p = [] then ['.']
  else
    let initialSlashes : Nat :=
      if p.take 1 = ['/'] then
        (if p.take 2 = ['/', '/'] ∧ ¬(p.take 3 = ['/', '/', '/']) then 2 else 1)
      else 0
    let comps := splitOnChar '/' p
    let newComps := comps.foldl (fun acc comp =>
      if comp = [] ∨ comp = ['.'] then acc
      else if ¬(comp = ['.', '.']) ∨ (initialSlashes = 0 ∧ acc = []) ∨
          (acc ≠ [] ∧ acc.getLastD [] = ['.', '.']) then acc ++ [comp]
      else if acc ≠ [] then acc.dropLast
      else acc) []
    let path := List.replicate initialSlashes '/' ++ List.intercalate (['/']) newComps
    if path = [] then ['.'] else path

def normpath (p : String) : String := String.mk (normpathL p.data)

/- posixpath.basename: the part after the last '/'. -/
def basenameL (l : List Char) : List Char := (splitOnChar '/' l).getLastD []

def basename (p : String) : String := String.mk (basenameL p.data)

/- The args dictionary with its built-in defaults (lines 59-66). -/
structure Args where
  h : Bool
  ftp_host : String
  ftp_user : String
  ftp_pass : String
  ftp_dir : Option String
  infiles : Option (List String)
deriving DecidableEq

def args0 : Args := ⟨false, "unknown", "none", "none", none, none⟩

/- parse_config (lines 108-138).  A line is skipped when it strips to
   nothing or its first raw character is '#'; otherwise all whitespace is
   removed and the line is split on '='. -/
def lineParts (line : List Char) : Option (List (List Char)) :=
  if stripPy line = [] ∨ line.headD ' ' = '#' then none
  else some (splitOnChar '=' (stripAllWS line))

/- One line of parse_config.  Accessing the value of a recognised key when
   the line has no '=' is the IndexError of line[1], modelled as an error. -/
def applyParts (a : Args) (parts : List (List Char)) : Except Unit Args :=
  if parts.headD [] = ("destination_site").data then
      match parts.get? 1 with
      | some v => Except.ok { a with ftp_host := String.mk v }
      | none => Except.error ()
    else if parts.headD [] = ("destination_login").data then
      match parts.get? 1 with
      | some v => Except.ok { a with ftp_user := String.mk v }
      | none => Except.error ()
    else if parts.headD [] = ("destination_password").data then
      match parts.get? 1 with
      | some v => Except.ok { a with ftp_pass := String.mk v }
      | none => Except.error ()
    else if parts.headD [] = ("destination_dir").data then
      match parts.get? 1 with
      | some v => Except.ok { a with ftp_dir := some (String.mk v) }
      | none => Except.error ()
    else Except.ok a

def applyLine (a : Args) (line : List Char) : Except Unit Args :=
  match lineParts line with
  | none => Except.ok a
  | some parts => applyParts a parts

def parse_config_lines (a : Args) : List (List Char) → Except Unit Args
  | [] => Except.ok a
  | line :: rest =>
    match applyLine a line with
    | Except.ok a2 => parse_config_lines a2 rest
    | Except.error e => Except.error e

/- parse_config over the whole file; an unreadable or missing file (content
   none) is silently tolerated by the bare try/except around open. -/
def parse_config (content : Option (List (List Char))) (a : Args) : Except Unit Args :=
  match content with
  | none => Except.ok a
  | some lines => parse_config_lines a lines

/- parse_args (lines 77-106).  opts are the (flag, value) pairs produced by
   getopt; the five independent if statements are applied per pair. -/
def applyOpt (a : Args) (ov : String × String) : Args :=
  let a1 := if ov.1 = "-h" then { a with h := true } else a
  let a2 := if ov.1 = "-n" then { a1 with ftp_host := ov.2 } else a1
  let a3 := if ov.1 = "-u" then { a2 with ftp_user := ov.2 } else a2
  let a4 := if ov.1 = "-p" then { a3 with ftp_pass := ov.2 } else a3
  if ov.1 = "-d" then { a4 with ftp_dir := some ov.2 } else a4

def parse_args_apply (a : Args) (opts : List (String × String)) : Args :=
  opts.foldl applyOpt a

def parse_args (a : Args) (opts : List (String × String)) (files : List String) : Args :=
  let a2 := parse_args_apply a opts
  if files.length < 1 then { a2 with h := true } else { a2 with infiles := some files }

/- The effective configuration of a run: built-in defaults, then the config
   file, then the command line, in that order (lines 252-261). -/
def resolveConfig (content : Option (List (List Char))) (opts : List (String × String)) :
    Except Unit Args :=
  match parse_config content args0 with
  | Except.ok a => Except.ok (parse_args_apply a opts)
  | Except.error e => Except.error e

/- Last-write-wins accumulation step shared by the two layering models. -/
def lastWinsStep {β γ : Type} (f : β → Option γ) (a : Option γ) (x : β) : Option γ :=
  Option.or (f x) a

/- Modelled from the spec: the value of the last occurrence of a flag on
   the command line, if any. -/
def cliLast (flag : String) (opts : List (String × String)) : Option String :=
  opts.foldl (lastWinsStep (fun ov => if ov.1 = flag then some ov.2 else none)) none

/- The value a single config line assigns to a key, if any. -/
def lineVal (key : List Char) (line : List Char) : Option (List Char) :=
  match lineParts line with
  | none => none
  | some parts => if parts.headD [] = key then parts.get? 1 else none

/- Modelled from the spec: the value of the last config line setting a key. -/
def cfgLast (key : List Char) (lines : List (List Char)) : Option (List Char) :=
  lines.foldl (lastWinsStep (lineVal key)) none

def cfgLastC (key : List Char) (content : Option (List (List Char))) : Option String :=
  match content with
  | none => none
  | some lines => (cfgLast key lines).map String.mk

/- encrypt_file (lines 140-180).  The interaction with the operating system
   is recorded as an event trace: the os.remove attempt (whose outcome is
   swallowed by try/except) and the os.system invocation.  realdir stands
   for os.path.dirname(os.path.realpath(infile)), which depends on the
   filesystem, and amiga for the os.name test. -/
def pgp_recipient : String := "beta4ups"

def docker_image : String := "ssolie/pgp-chicken:latest"

inductive EncEvent
  | removeAttempt (path : String)
  | runCmd (cmd : String)
deriving DecidableEq

structure EncEnv where
  realdir : String
  amiga : Bool
  removeOk : Bool
  sysres : Nat

def encCmd (env : EncEnv) (infile outfile : String) : String :=
  if env.amiga then
    "pgp -o " ++ outfile ++ " -e " ++ infile ++ " " ++ pgp_recipient
  else
    "docker run --rm " ++ "-v " ++ env.realdir ++ ":/tmp " ++ "-w /root " ++
      docker_image ++ " " ++ "./pgp -o " ++ ("/tmp/" ++ outfile) ++ " -e " ++
      ("/tmp/" ++ infile) ++ " " ++ pgp_recipient

def encrypt_file (env : EncEnv) (infile : String) : Option String × List EncEvent :=
  (if env.sysres = 0 then some (infile ++ ".pgp") else none,
   [EncEvent.removeAttempt (infile ++ ".pgp"),
    EncEvent.runCmd (encCmd env infile (infile ++ ".pgp"))])

/- send_file (lines 182-216).  Resource actions are recorded as an event
   trace: openFile is a successful open of the local file, connect a
   successful FTP login, cwd and stor the attempted directory change and
   transfer, quit a successful clean session termination.  closeFile would
   be an explicit close of the local file handle; the source contains no
   close call, so no branch ever emits it. -/
inductive FtpEvent
  | openFile (path : String)
  | closeFile (path : String)
  | connect (host user pw : String)
  | cwd (dir : String)
  | stor (cmd : String)
  | quit
deriving DecidableEq

structure FtpEnv where
  openOk : Bool
  connectOk : Bool
  cwdOk : Bool
  storOk : Bool
  quitOk : Bool

def send_file (env : FtpEnv) (outpath ftphost ftpuser ftppass : String)
    (ftpdir : Option String) : Bool × List FtpEvent :=
  if env.openOk = false then (false, [])
  else if env.connectOk = false then (false, [FtpEvent.openFile outpath])
  else
    match ftpdir with
    | some d =>
      if env.cwdOk = false then
        (false, [FtpEvent.openFile outpath, FtpEvent.connect ftphost ftpuser ftppass,
          FtpEvent.cwd d])
      else if env.storOk = false then
        (false, [FtpEvent.openFile outpath, FtpEvent.connect ftphost ftpuser ftppass,
          FtpEvent.cwd d, FtpEvent.stor ("STOR " ++ outpath)])
      else if env.quitOk = false then
        (false, [FtpEvent.openFile outpath, FtpEvent.connect ftphost ftpuser ftppass,
          FtpEvent.cwd d, FtpEvent.stor ("STOR " ++ outpath)])
      else
        (true, [FtpEvent.openFile outpath, FtpEvent.connect ftphost ftpuser ftppass,
          FtpEvent.cwd d, FtpEvent.stor ("STOR " ++ outpath), FtpEvent.quit])
    | none =>
      if env.storOk = false then
        (false, [FtpEvent.openFile outpath, FtpEvent.connect ftphost ftpuser ftppass,
          FtpEvent.stor ("STOR " ++ outpath)])
      else if env.quitOk = false then
        (false, [FtpEvent.openFile outpath, FtpEvent.connect ftphost ftpuser ftppass,
          FtpEvent.stor ("STOR " ++ outpath)])
      else
        (true, [FtpEvent.openFile outpath, FtpEvent.connect ftphost ftpuser ftppass,
          FtpEvent.stor ("STOR " ++ outpath), FtpEvent.quit])

/- Modelled from the spec: an upload stores the file under its own base
   name. -/
def specSendStor (outpath : String) : String := "STOR " ++ basename outpath

/- The per-file pipeline of the main loop (lines 263-287), with the stage
   reached, the printed halt diagnostics, and how often validation,
   encryption and upload were invoked for this file. -/
inductive Stage
  | failedExist
  | failedNotFile
  | failedName
  | failedEncrypt
  | failedUpload
  | done
deriving DecidableEq

structure Outcome where
  inpath : String
  msgs : List String
  valCount : Nat
  encCount : Nat
  upCount : Nat
  stage : Stage
deriving DecidableEq

structure BatchEnv where
  pathExists : String → Bool
  pathIsFile : String → Bool
  encE : String → EncEnv
  ftpE : String → FtpEnv

def processFile (benv : BatchEnv) (cfg : Args) (arg : String) : Outcome :=
  if benv.pathExists (normpath arg) = false then
    ⟨normpath arg, ["does not exist"], 0, 0, 0, Stage.failedExist⟩
  else if benv.pathIsFile (normpath arg) = false then
    ⟨normpath arg, ["not a file"], 0, 0, 0, Stage.failedNotFile⟩
  else if valid_file_name (normpath arg) = false then
    ⟨normpath arg, [], 1, 0, 0, Stage.failedName⟩
  else
    match (encrypt_file (benv.encE (normpath arg)) (normpath arg)).1 with
    | none => ⟨normpath arg, ["pgp encryption failed"], 1, 1, 0, Stage.failedEncrypt⟩
    | some outpath =>
      if (send_file (benv.ftpE outpath) outpath cfg.ftp_host cfg.ftp_user cfg.ftp_pass
          cfg.ftp_dir).1 = false then
        ⟨normpath arg, [], 1, 1, 1, Stage.failedUpload⟩
      else ⟨normpath arg, ["Done"], 1, 1, 1, Stage.done⟩

/- The batch loop: process files in order, stop at the first failure. -/
def runBatch (benv : BatchEnv) (cfg : Args) : List String → List Outcome
  | [] => []
  | arg :: rest =>
    if (processFile benv cfg arg).stage = Stage.done
    then processFile benv cfg arg :: runBatch benv cfg rest
    else [processFile benv cfg arg]

/- Concrete environments used by witnesses and counterexamples. -/
def ftpAllOk : FtpEnv := ⟨true, true, true, true, true⟩

def ftpStorFail : FtpEnv := ⟨true, true, true, false, true⟩

def encEnvOk : EncEnv := ⟨"/work", false, true, 0⟩

def benvAll : BatchEnv := ⟨fun _ => true, fun _ => true, fun _ => encEnvOk, fun _ => ftpAllOk⟩

/- Concrete inputs used by witnesses. -/
def contentW : Option (List (List Char)) :=
  some [("destination_site=cfgh").data, ("destination_dir=/up").data]

def optsW : List (String × String) := [(("-n"), ("clih"))]

def argsW : Args := ⟨false, ("clih"), ("none"), ("none"), some ("/up"), none⟩

def linesW : List (List Char) :=
  [("# note").data, ("   ").data, ("foo=bar").data, ("destination_login=u2").data]

/- Lemmas about the backtracking engine. -/

theorem tryFrom_succ_some {α : Type} (l : List Char) (cont : List Char → List Char → Option α)
    (k : Nat) (x : α) (h : cont (l.take (k + 1)) (l.drop (k + 1)) = some x) :
    tryFrom l cont (k + 1) = some x := by
  simp [tryFrom, h]

theorem tryFrom_succ_none {α : Type} (l : List Char) (cont : List Char → List Char → Option α)
    (k : Nat) (h : cont (l.take (k + 1)) (l.drop (k + 1)) = none) :
    tryFrom l cont (k + 1) = tryFrom l cont k := by
  simp [tryFrom, h]

theorem tryFrom_eq_of_none_between {α : Type} (l : List Char)
    (cont : List Char → List Char → Option α) (k n : Nat) (hkn : k ≤ n)
    (h : ∀ j, k < j → j ≤ n → cont (l.take j) (l.drop j) = none) :
    tryFrom l cont n = tryFrom l cont k := by
  induction n with
  | zero =>
    have hk : k = 0 := Nat.le_zero.mp hkn
    rw [hk]
  | succ n ih =>
    by_cases hk : k = n + 1
    · rw [hk]
    · have hk2 : k ≤ n := by omega
      rw [tryFrom_succ_none l cont n (h (n + 1) (by omega) (by omega))]
      exact ih hk2 (fun j h1 h2 => h j h1 (by omega))

theorem tryFrom_some_exists {α : Type} (l : List Char)
    (cont : List Char → List Char → Option α) (n : Nat) (x : α)
    (h : tryFrom l cont n = some x) :
    ∃ k, 1 ≤ k ∧ k ≤ n ∧ cont (l.take k) (l.drop k) = some x := by
  induction n with
  | zero => simp [tryFrom] at h
  | succ n ih =>
    cases hc : cont (l.take (n + 1)) (l.drop (n + 1)) with
    | some y =>
      have hx : some y = some x := by rw [← h]; simp [tryFrom, hc]
      exact ⟨n + 1, by omega, by omega, by rw [hc, hx]⟩
    | none =>
      rw [tryFrom_succ_none l cont n hc] at h
      obtain ⟨k, h1, h2, h3⟩ := ih h
      exact ⟨k, h1, by omega, h3⟩

/- List helpers over take, drop and takeWhile. -/

theorem take_len_app (xs ys : List Char) : (xs ++ ys).take xs.length = xs := by
  induction xs with
  | nil => simp
  | cons c t ih => simp [List.take, ih]

theorem drop_len_app (xs ys : List Char) : (xs ++ ys).drop xs.length = ys := by
  induction xs with
  | nil => simp
  | cons c t ih => exact ih

theorem drop_len_add_app (xs ys : List Char) (i : Nat) :
    (xs ++ ys).drop (xs.length + i) = ys.drop i := by
  induction xs with
  | nil => simp
  | cons c t ih =>
    show List.drop (t.length + 1 + i) (c :: (t ++ ys)) = ys.drop i
    rw [Nat.add_right_comm t.length 1 i]
    exact ih

theorem drop_app_of_le (xs ys : List Char) (i : Nat) (h : i ≤ xs.length) :
    (xs ++ ys).drop i = xs.drop i ++ ys := by
  induction xs generalizing i with
  | nil =>
    have : i = 0 := by simpa using h
    rw [this]
    simp
  | cons c t ih =>
    cases i with
    | zero => simp
    | succ i =>
      have h2 : i ≤ t.length := by simpa using h
      simpa [List.drop] using ih i h2

theorem takeWhile_cons_neg (p : Char → Bool) (c : Char) (l : List Char) (h : p c = false) :
    (c :: l).takeWhile p = [] := by
  simp [List.takeWhile_cons, h]

theorem takeWhile_app_all (p : Char → Bool) (xs ys : List Char) (h : xs.all p = true) :
    (xs ++ ys).takeWhile p = xs ++ ys.takeWhile p := by
  induction xs with
  | nil => simp
  | cons c t ih =>
    simp only [List.all_cons, Bool.and_eq_true] at h
    simp [List.takeWhile_cons, h.1, ih h.2]

theorem take_all_of_le_takeWhile (p : Char → Bool) (l : List Char) (k : Nat)
    (h : k ≤ (l.takeWhile p).length) : (l.take k).all p = true := by
  induction l generalizing k with
  | nil => simp [List.take_nil]
  | cons c t ih =>
    cases hc : p c with
    | false =>
      have hk : k = 0 := by
        rw [takeWhile_cons_neg p c t hc] at h
        simpa using h
      rw [hk]
      simp
    | true =>
      cases k with
      | zero => simp
      | succ k =>
        have h2 : k ≤ (t.takeWhile p).length := by
          rw [List.takeWhile_cons, hc] at h
          simpa using h
        simp only [List.take, List.all_cons, Bool.and_eq_true]
        exact ⟨hc, ih k h2⟩

/- Character-class facts. -/

theorem digit_isLabel (c : Char) (h : isDigitChar c = true) : isLabelChar c = true := by
  have hp := of_decide_eq_true h
  exact decide_eq_true (Or.inr (Or.inl hp))

theorem digit_ne_dash (c : Char) (h : isDigitChar c = true) : c ≠ '-' := by
  intro hc
  rw [hc] at h
  exact absurd h (by decide)

theorem all_digit_label (l : List Char) (h : l.all isDigitChar = true) :
    l.all isLabelChar = true := by
  rw [List.all_eq_true] at h ⊢
  exact fun c hc => digit_isLabel c (h c hc)

/- The head of `V.drop i ++ '.' :: r` is a digit or a dot, never the '-'
   separator, for any i that does not pass the end of V. -/
theorem digits_dot_head (v r : List Char) (hv : v.all isDigitChar = true) :
    ∀ i, i ≤ v.length → ∃ c t, v.drop i ++ '.' :: r = c :: t ∧ c ≠ '-' := by
  induction v with
  | nil =>
    intro i hi
    have h0 : i = 0 := by simpa using hi
    rw [h0]
    exact ⟨'.', r, rfl, by decide⟩
  | cons d tl ih =>
    intro i hi
    simp only [List.all_cons, Bool.and_eq_true] at hv
    cases i with
    | zero => exact ⟨d, tl ++ '.' :: r, by simp, digit_ne_dash d hv.1⟩
    | succ i =>
      have h2 : i ≤ tl.length := by simpa using hi
      simpa [List.drop] using ih hv.2 i h2

/- On an input of the exact anchored shape V.R.lha the digit matcher
   commits to the full group V, then the full group R. -/
theorem matchTail_exact (V R : List Char)
    (hV : V ≠ []) (hVc : V.all isDigitChar = true)
    (hR : R ≠ []) (hRc : R.all isDigitChar = true) :
    matchTail (V ++ '.' :: (R ++ ['.', 'l', 'h', 'a'])) = some (V, R) := by
  have hTW : (V ++ '.' :: (R ++ ['.', 'l', 'h', 'a'])).takeWhile isDigitChar = V := by
    rw [takeWhile_app_all _ _ _ hVc, takeWhile_cons_neg _ _ _ (by decide)]
    simp
  unfold matchTail tryGreedy
  rw [hTW]
  obtain ⟨n, hn⟩ : ∃ n, V.length = n + 1 := by
    cases V with
    | nil => exact absurd rfl hV
    | cons c t => exact ⟨t.length, rfl⟩
  rw [hn]
  apply tryFrom_succ_some
  rw [← hn, take_len_app, drop_len_app]
  show tryGreedy isDigitChar (R ++ ['.', 'l', 'h', 'a']) (contRev V) = some (V, R)
  have hTW2 : (R ++ ['.', 'l', 'h', 'a']).takeWhile isDigitChar = R := by
    rw [takeWhile_app_all _ _ _ hRc, takeWhile_cons_neg _ _ _ (by decide)]
    simp
  unfold tryGreedy
  rw [hTW2]
  obtain ⟨m, hm⟩ : ∃ m, R.length = m + 1 := by
    cases R with
    | nil => exact absurd rfl hR
    | cons c t => exact ⟨t.length, rfl⟩
  rw [hm]
  apply tryFrom_succ_some
  rw [← hm, take_len_app, drop_len_app]
  rfl

/- On an input of the exact anchored shape A-V.R.lha, the engine matches
   with label A, version V and revision R: no longer label can be followed
   by the literal '-', and within the committed label the groups are forced. -/
theorem pyMatch_exact (A V R : List Char)
    (hA : A ≠ []) (hAc : A.all isLabelChar = true)
    (hV : V ≠ []) (hVc : V.all isDigitChar = true)
    (hR : R ≠ []) (hRc : R.all isDigitChar = true) :
    pyMatch (A ++ '-' :: (V ++ '.' :: (R ++ ['.', 'l', 'h', 'a']))) = some (A, V, R) := by
  have hTW : (A ++ '-' :: (V ++ '.' :: (R ++ ['.', 'l', 'h', 'a']))).takeWhile isLabelChar
      = A ++ '-' :: V := by
    have h1 : A ++ '-' :: (V ++ '.' :: (R ++ ['.', 'l', 'h', 'a']))
        = (A ++ '-' :: V) ++ '.' :: (R ++ ['.', 'l', 'h', 'a']) := by
      simp
    have hall : (A ++ '-' :: V).all isLabelChar = true := by
      simp only [List.all_append, List.all_cons, Bool.and_eq_true]
      exact ⟨hAc, by decide, all_digit_label V hVc⟩
    rw [h1, takeWhile_app_all _ _ _ hall, takeWhile_cons_neg _ _ _ (by decide)]
    simp
  unfold pyMatch tryGreedy
  rw [hTW]
  have hlen : (A ++ '-' :: V).length = A.length + (V.length + 1) := by
    simp [List.length_append]
  rw [hlen]
  have hnone : ∀ j, A.length < j → j ≤ A.length + (V.length + 1) →
      contLabel ((A ++ '-' :: (V ++ '.' :: (R ++ ['.', 'l', 'h', 'a']))).take j)
        ((A ++ '-' :: (V ++ '.' :: (R ++ ['.', 'l', 'h', 'a']))).drop j) = none := by
    intro j hj1 hj2
    obtain ⟨i, rfl, hile⟩ : ∃ i, j = A.length + (1 + i) ∧ i ≤ V.length :=
      ⟨j - A.length - 1, by omega, by omega⟩
    have hdrop : (A ++ '-' :: (V ++ '.' :: (R ++ ['.', 'l', 'h', 'a']))).drop (A.length + (1 + i))
        = V.drop i ++ '.' :: (R ++ ['.', 'l', 'h', 'a']) := by
      rw [drop_len_add_app, Nat.add_comm 1 i]
      show (V ++ '.' :: (R ++ ['.', 'l', 'h', 'a'])).drop i = _
      exact drop_app_of_le _ _ _ hile
    obtain ⟨c, t, hct, hcne⟩ :=
      digits_dot_head V (R ++ ['.', 'l', 'h', 'a']) hVc i hile
    rw [hdrop, hct]
    unfold contLabel
    split
    · rename_i rest1 heq
      injection heq with hch _
      exact absurd hch hcne
    · rfl
  rw [tryFrom_eq_of_none_between _ contLabel A.length (A.length + (V.length + 1)) (by omega) hnone]
  obtain ⟨n, hn⟩ : ∃ n, A.length = n + 1 := by
    cases A with
    | nil => exact absurd rfl hA
    | cons c t => exact ⟨t.length, rfl⟩
  rw [hn]
  apply tryFrom_succ_some
  rw [← hn, take_len_app, drop_len_app]
  show (match matchTail (V ++ '.' :: (R ++ ['.', 'l', 'h', 'a'])) with
    | some (v, r) => some (A, v, r)
    | none => none) = some (A, V, R)
  rw [matchTail_exact V R hV hVc hR hRc]

theorem checkGroups_eq_numCheck (v r : List Char) :
    checkGroups v r = (numCheck v 255 && numCheck r 65535) := by
  unfold checkGroups numCheck
  split_ifs <;> simp_all

/- numCheck agrees with the spec's phrasing of the numeric rules. -/
theorem numCheck_eq_specNumOk (v : List Char) (b : Nat) : numCheck v b = specNumOk v b := by
  unfold numCheck specNumOk
  by_cases h : (decide (v.length > 1) && (v.headD ' ' == '0')) = true
  · rw [if_pos h]
    simp only [Bool.and_eq_true, decide_eq_true_eq, beq_iff_eq] at h
    have h1 : decide (v.length = 1) = false := by
      simp only [decide_eq_false_iff_not]
      omega
    have h2 : (!(v.headD ' ' == '0')) = false := by
      rw [h.2]
      rfl
    rw [h1, h2]
    rfl
  · rw [if_neg h]
    have hor : (decide (v.length = 1) || !(v.headD ' ' == '0')) = true := by
      simp only [Bool.and_eq_true, decide_eq_true_eq, beq_iff_eq, not_and] at h
      by_cases hh : v.headD ' ' = '0'
      · have hne : v ≠ [] := by
          intro hnil
          rw [hnil] at hh
          exact absurd hh (by decide)
        have hge : 1 ≤ v.length := List.length_pos.mpr hne
        have hle : ¬(v.length > 1) := fun hgt => (h hgt) hh
        have hlen1 : v.length = 1 := by omega
        rw [decide_eq_true hlen1]
        simp
      · have hb : (v.headD ' ' == '0') = false := beq_eq_false_iff_ne.mpr hh
        rw [hb]
        simp
    rw [hor]
    simp

/- checkGroups agrees with the spec's phrasing of the numeric rules. -/
theorem checkGroups_iff_spec (v r : List Char) :
    checkGroups v r = (specNumOk v 255 && specNumOk r 65535) := by
  rw [checkGroups_eq_numCheck, numCheck_eq_specNumOk, numCheck_eq_specNumOk]

/-- Claim C1, amended: for every name of the exact anchored shape
label-version.revision.lha (label non-empty over [a-z0-9_-], version and
revision non-empty digit strings, literal dots, nothing after .lha),
validation succeeds iff version has no leading zero (unless it is exactly
"0") and is at most 255, and revision has no leading zero (unless it is
exactly "0") and is at most 65535.  The pattern is however not anchored at
the end and its dots are wildcards, so acceptance is not limited to names
of this shape (see the counterexample theorem). -/
theorem valid_name_exact_shape (A V R : List Char)
    (hA : A ≠ []) (hAc : A.all isLabelChar = true)
    (hV : V ≠ []) (hVc : V.all isDigitChar = true)
    (hR : R ≠ []) (hRc : R.all isDigitChar = true) :
    valid_file_name (String.mk (A ++ '-' :: (V ++ '.' :: (R ++ ['.', 'l', 'h', 'a'])))) = true
      ↔ (specNumOk V 255 && specNumOk R 65535) = true := by
  unfold valid_file_name
  show (match pyMatch (A ++ '-' :: (V ++ '.' :: (R ++ ['.', 'l', 'h', 'a']))) with
    | none => false
    | some (_, ver, rev) => checkGroups ver rev) = true ↔ _
  rw [pyMatch_exact A V R hA hAc hV hVc hR hRc]
  show checkGroups V R = true ↔ _
  rw [checkGroups_iff_spec]

/-- Witness for valid_name_exact_shape at the concrete decomposition
beta-1.0.lha. -/
theorem valid_name_exact_shape_witness :
    ((("beta").data ≠ [] ∧ (("beta").data).all isLabelChar = true) ∧
     (("1").data ≠ [] ∧ (("1").data).all isDigitChar = true) ∧
     (("0").data ≠ [] ∧ (("0").data).all isDigitChar = true)) ∧
    (valid_file_name (String.mk ((("beta").data) ++ '-' ::
        ((("1").data) ++ '.' :: ((("0").data) ++ ['.', 'l', 'h', 'a'])))) = true
      ↔ (specNumOk (("1").data) 255 && specNumOk (("0").data) 65535) = true) :=
  ⟨⟨⟨by decide, by decide⟩, ⟨by decide, by decide⟩, ⟨by decide, by decide⟩⟩,
   valid_name_exact_shape (("beta").data) (("1").data) (("0").data)
     (by decide) (by decide) (by decide) (by decide) (by decide) (by decide)⟩

/-- Claim C1, counterexample: the compiled pattern is neither anchored at
the end nor are its dots literal, so valid_file_name accepts names the
claim requires it to reject: "a-1.2.lhax" has trailing material after
.lha, and "a-1x2ylha" has arbitrary separator characters in place of the
dots; the spec-shaped predicate rejects both. -/
theorem valid_name_overmatch :
    valid_file_name ("a-1.2.lhax") = true ∧
    valid_file_name ("a-1x2ylha") = true ∧
    specValid ("a-1.2.lhax") = false ∧
    specValid ("a-1x2ylha") = false := by
  refine ⟨by decide, by decide, by decide, by decide⟩

/-- Claim C7: a single-digit "0" is legal for either numeric part, since
the leading-zero rejection fires only when the digit sequence is longer
than one character; in particular "beta4ups-1.0.lha" validates and its
captured groups are version "1" and revision "0". -/
theorem single_zero_legal :
    checkGroups (("0").data) (("0").data) = true ∧
    valid_file_name ("x-0.0.lha") = true ∧
    valid_file_name ("beta4ups-1.0.lha") = true ∧
    pyMatch (("beta4ups-1.0.lha").data)
      = some (("beta4ups").data, ("1").data, ("0").data) := by
  refine ⟨by decide, by decide, by decide, by decide⟩

/- Last-write-wins folds: the result from an arbitrary accumulator is the
   result from none, unless no element produces a value. -/
theorem foldl_lastWins {β γ : Type} (f : β → Option γ) (l : List β) (acc : Option γ) :
    l.foldl (lastWinsStep f) acc = Option.or (l.foldl (lastWinsStep f) none) acc := by
  induction l generalizing acc with
  | nil => rfl
  | cons x t ih =>
    rw [List.foldl_cons, List.foldl_cons, ih (lastWinsStep f acc x), ih (lastWinsStep f none x)]
    show Option.or (t.foldl (lastWinsStep f) none) (Option.or (f x) acc)
      = Option.or (Option.or (t.foldl (lastWinsStep f) none) (Option.or (f x) none)) acc
    rw [Option.or_assoc]
    cases hfx : f x <;> rfl

theorem lastWins_cons {β γ : Type} (f : β → Option γ) (x : β) (t : List β) :
    (x :: t).foldl (lastWinsStep f) none
      = Option.or (t.foldl (lastWinsStep f) none) (f x) := by
  rw [List.foldl_cons, foldl_lastWins]
  show Option.or (t.foldl (lastWinsStep f) none) (Option.or (f x) none)
    = Option.or (t.foldl (lastWinsStep f) none) (f x)
  cases hfx : f x <;> rfl

theorem cfgLast_cons (key line : List Char) (lines : List (List Char)) :
    cfgLast key (line :: lines)
      = Option.or (cfgLast key lines) (lineVal key line) := by
  unfold cfgLast
  exact lastWins_cons (lineVal key) line lines

theorem cliLast_cons (flag : String) (ov : String × String) (opts : List (String × String)) :
    cliLast flag (ov :: opts)
      = Option.or (cliLast flag opts) (if ov.1 = flag then some ov.2 else none) := by
  unfold cliLast
  exact lastWins_cons (fun ov => if ov.1 = flag then some ov.2 else none) ov opts

/- How one command-line option pair changes each setting. -/
theorem applyOpt_fields (a : Args) (ov : String × String) :
    (applyOpt a ov).ftp_host = (if ov.1 = ("-n") then ov.2 else a.ftp_host) ∧
    (applyOpt a ov).ftp_user = (if ov.1 = ("-u") then ov.2 else a.ftp_user) ∧
    (applyOpt a ov).ftp_pass = (if ov.1 = ("-p") then ov.2 else a.ftp_pass) ∧
    (applyOpt a ov).ftp_dir = (if ov.1 = ("-d") then some ov.2 else a.ftp_dir) := by
  unfold applyOpt
  split_ifs <;> exact ⟨rfl, rfl, rfl, rfl⟩

/- How one config line changes each setting, given that it did not raise. -/
theorem applyLine_fields (a : Args) (line : List Char) (a2 : Args)
    (h : applyLine a line = Except.ok a2) :
    a2.ftp_host = (match lineVal (("destination_site").data) line with
      | some v => String.mk v
      | none => a.ftp_host) ∧
    a2.ftp_user = (match lineVal (("destination_login").data) line with
      | some v => String.mk v
      | none => a.ftp_user) ∧
    a2.ftp_pass = (match lineVal (("destination_password").data) line with
      | some v => String.mk v
      | none => a.ftp_pass) ∧
    a2.ftp_dir = (match lineVal (("destination_dir").data) line with
      | some v => some (String.mk v)
      | none => a.ftp_dir) := by
  unfold applyLine at h
  cases hlp : lineParts line with
  | none =>
    rw [hlp] at h
    have h3 : (Except.ok a : Except Unit Args) = Except.ok a2 := h
    injection h3 with h4
    subst h4
    have hlv : ∀ key, lineVal key line = none := by
      intro key
      unfold lineVal
      rw [hlp]
    rw [hlv, hlv, hlv, hlv]
    exact ⟨rfl, rfl, rfl, rfl⟩
  | some parts =>
    rw [hlp] at h
    replace h : applyParts a parts = Except.ok a2 := h
    have hlv : ∀ key, lineVal key line
        = (if parts.headD [] = key then parts.get? 1 else none) := by
      intro key
      unfold lineVal
      rw [hlp]
    rw [hlv, hlv, hlv, hlv]
    unfold applyParts at h
    by_cases e1 : parts.headD [] = ("destination_site").data
    · have e2 : ¬(parts.headD [] = ("destination_login").data) := by rw [e1]; decide
      have e3 : ¬(parts.headD [] = ("destination_password").data) := by rw [e1]; decide
      have e4 : ¬(parts.headD [] = ("destination_dir").data) := by rw [e1]; decide
      rw [if_pos e1] at h ⊢
      rw [if_neg e2, if_neg e3, if_neg e4]
      cases hg : parts.get? 1 with
      | none =>
        rw [hg] at h
        exact Except.noConfusion h
      | some v =>
        rw [hg] at h
        injection h with h2
        subst h2
        exact ⟨rfl, rfl, rfl, rfl⟩
    · rw [if_neg e1] at h ⊢
      by_cases e2 : parts.headD [] = ("destination_login").data
      · have e3 : ¬(parts.headD [] = ("destination_password").data) := by rw [e2]; decide
        have e4 : ¬(parts.headD [] = ("destination_dir").data) := by rw [e2]; decide
        rw [if_pos e2] at h ⊢
        rw [if_neg e3, if_neg e4]
        cases hg : parts.get? 1 with
        | none =>
          rw [hg] at h
          exact Except.noConfusion h
        | some v =>
          rw [hg] at h
          injection h with h2
          subst h2
          exact ⟨rfl, rfl, rfl, rfl⟩
      · rw [if_neg e2] at h ⊢
        by_cases e3 : parts.headD [] = ("destination_password").data
        · have e4 : ¬(parts.headD [] = ("destination_dir").data) := by rw [e3]; decide
          rw [if_pos e3] at h ⊢
          rw [if_neg e4]
          cases hg : parts.get? 1 with
          | none =>
            rw [hg] at h
            exact Except.noConfusion h
          | some v =>
            rw [hg] at h
            injection h with h2
            subst h2
            exact ⟨rfl, rfl, rfl, rfl⟩
        · rw [if_neg e3] at h ⊢
          by_cases e4 : parts.headD [] = ("destination_dir").data
          · rw [if_pos e4] at h ⊢
            cases hg : parts.get? 1 with
            | none =>
              rw [hg] at h
              exact Except.noConfusion h
            | some v =>
              rw [hg] at h
              injection h with h2
              subst h2
              exact ⟨rfl, rfl, rfl, rfl⟩
          · rw [if_neg e4] at h ⊢
            injection h with h2
            subst h2
            exact ⟨rfl, rfl, rfl, rfl⟩

/- Over a whole config file, each setting ends at the last line that sets
   its key, or stays at its incoming value. -/
theorem parse_config_fields (lines : List (List Char)) :
    ∀ a c, parse_config_lines a lines = Except.ok c →
      c.ftp_host = (match cfgLast (("destination_site").data) lines with
        | some v => String.mk v
        | none => a.ftp_host) ∧
      c.ftp_user = (match cfgLast (("destination_login").data) lines with
        | some v => String.mk v
        | none => a.ftp_user) ∧
      c.ftp_pass = (match cfgLast (("destination_password").data) lines with
        | some v => String.mk v
        | none => a.ftp_pass) ∧
      c.ftp_dir = (match cfgLast (("destination_dir").data) lines with
        | some v => some (String.mk v)
        | none => a.ftp_dir) := by
  induction lines with
  | nil =>
    intro a c h
    have h2 : a = c := by
      have h3 : (Except.ok a : Except Unit Args) = Except.ok c := h
      injection h3
    subst h2
    exact ⟨rfl, rfl, rfl, rfl⟩
  | cons line rest ih =>
    intro a c h
    rw [parse_config_lines] at h
    cases hap : applyLine a line with
    | error e =>
      rw [hap] at h
      exact Except.noConfusion h
    | ok a2 =>
      rw [hap] at h
      replace h : parse_config_lines a2 rest = Except.ok c := h
      obtain ⟨h1, h2, h3, h4⟩ := ih a2 c h
      obtain ⟨g1, g2, g3, g4⟩ := applyLine_fields a line a2 hap
      rw [cfgLast_cons, cfgLast_cons, cfgLast_cons, cfgLast_cons]
      refine ⟨?_, ?_, ?_, ?_⟩
      · cases hcl : cfgLast (("destination_site").data) rest with
        | some v =>
          rw [hcl] at h1
          exact h1
        | none =>
          rw [hcl] at h1
          rw [h1]
          exact g1
      · cases hcl : cfgLast (("destination_login").data) rest with
        | some v =>
          rw [hcl] at h2
          exact h2
        | none =>
          rw [hcl] at h2
          rw [h2]
          exact g2
      · cases hcl : cfgLast (("destination_password").data) rest with
        | some v =>
          rw [hcl] at h3
          exact h3
        | none =>
          rw [hcl] at h3
          rw [h3]
          exact g3
      · cases hcl : cfgLast (("destination_dir").data) rest with
        | some v =>
          rw [hcl] at h4
          exact h4
        | none =>
          rw [hcl] at h4
          rw [h4]
          exact g4

/- Over the whole command line, each setting ends at the last flag that
   sets it, or stays at its incoming value. -/
theorem parse_args_fields (opts : List (String × String)) :
    ∀ a : Args,
      (parse_args_apply a opts).ftp_host = (match cliLast ("-n") opts with
        | some v => v
        | none => a.ftp_host) ∧
      (parse_args_apply a opts).ftp_user = (match cliLast ("-u") opts with
        | some v => v
        | none => a.ftp_user) ∧
      (parse_args_apply a opts).ftp_pass = (match cliLast ("-p") opts with
        | some v => v
        | none => a.ftp_pass) ∧
      (parse_args_apply a opts).ftp_dir = (match cliLast ("-d") opts with
        | some v => some v
        | none => a.ftp_dir) := by
  induction opts with
  | nil => exact fun a => ⟨rfl, rfl, rfl, rfl⟩
  | cons ov t ih =>
    intro a
    have hstep : parse_args_apply a (ov :: t) = parse_args_apply (applyOpt a ov) t := rfl
    rw [hstep]
    obtain ⟨h1, h2, h3, h4⟩ := ih (applyOpt a ov)
    obtain ⟨g1, g2, g3, g4⟩ := applyOpt_fields a ov
    rw [cliLast_cons, cliLast_cons, cliLast_cons, cliLast_cons]
    refine ⟨?_, ?_, ?_, ?_⟩
    · cases hcl : cliLast ("-n") t with
      | some v =>
        rw [hcl] at h1
        exact h1
      | none =>
        rw [hcl] at h1
        rw [h1, g1]
        by_cases hov : ov.1 = ("-n")
        · rw [if_pos hov, if_pos hov]
          rfl
        · rw [if_neg hov, if_neg hov]
          rfl
    · cases hcl : cliLast ("-u") t with
      | some v =>
        rw [hcl] at h2
        exact h2
      | none =>
        rw [hcl] at h2
        rw [h2, g2]
        by_cases hov : ov.1 = ("-u")
        · rw [if_pos hov, if_pos hov]
          rfl
        · rw [if_neg hov, if_neg hov]
          rfl
    · cases hcl : cliLast ("-p") t with
      | some v =>
        rw [hcl] at h3
        exact h3
      | none =>
        rw [hcl] at h3
        rw [h3, g3]
        by_cases hov : ov.1 = ("-p")
        · rw [if_pos hov, if_pos hov]
          rfl
        · rw [if_neg hov, if_neg hov]
          rfl
    · cases hcl : cliLast ("-d") t with
      | some v =>
        rw [hcl] at h4
        exact h4
      | none =>
        rw [hcl] at h4
        rw [h4, g4]
        by_cases hov : ov.1 = ("-d")
        · rw [if_pos hov, if_pos hov]
          rfl
        · rw [if_neg hov, if_neg hov]
          rfl

/-- Claim C3: for each of the four settings, the effective value is the
last command-line flag value when one is given; otherwise the value of the
last config-file line setting the corresponding key; otherwise the
built-in default ("unknown" host, "none" user and password, no remote
directory): the command line always wins over the config file, which
always wins over the defaults. -/
theorem config_precedence (content : Option (List (List Char))) (opts : List (String × String))
    (a : Args) (h : resolveConfig content opts = Except.ok a) :
    a.ftp_host = ((cliLast ("-n") opts).getD
      ((cfgLastC (("destination_site").data) content).getD ("unknown"))) ∧
    a.ftp_user = ((cliLast ("-u") opts).getD
      ((cfgLastC (("destination_login").data) content).getD ("none"))) ∧
    a.ftp_pass = ((cliLast ("-p") opts).getD
      ((cfgLastC (("destination_password").data) content).getD ("none"))) ∧
    a.ftp_dir = Option.or (cliLast ("-d") opts)
      (cfgLastC (("destination_dir").data) content) := by
  unfold resolveConfig at h
  cases hpc : parse_config content args0 with
  | error e =>
    rw [hpc] at h
    exact Except.noConfusion h
  | ok mid =>
    rw [hpc] at h
    replace h : (Except.ok (parse_args_apply mid opts) : Except Unit Args) = Except.ok a := h
    injection h with h2
    subst h2
    have hmid : mid.ftp_host = (cfgLastC (("destination_site").data) content).getD ("unknown") ∧
        mid.ftp_user = (cfgLastC (("destination_login").data) content).getD ("none") ∧
        mid.ftp_pass = (cfgLastC (("destination_password").data) content).getD ("none") ∧
        mid.ftp_dir = cfgLastC (("destination_dir").data) content := by
      cases content with
      | none =>
        have h3 : (Except.ok args0 : Except Unit Args) = Except.ok mid := hpc
        injection h3 with h4
        subst h4
        exact ⟨rfl, rfl, rfl, rfl⟩
      | some lines =>
        obtain ⟨q1, q2, q3, q4⟩ := parse_config_fields lines args0 mid hpc
        refine ⟨?_, ?_, ?_, ?_⟩
        · rw [q1]
          cases hcl : cfgLast (("destination_site").data) lines <;> simp [cfgLastC, hcl, args0]
        · rw [q2]
          cases hcl : cfgLast (("destination_login").data) lines <;> simp [cfgLastC, hcl, args0]
        · rw [q3]
          cases hcl : cfgLast (("destination_password").data) lines <;> simp [cfgLastC, hcl, args0]
        · rw [q4]
          cases hcl : cfgLast (("destination_dir").data) lines <;> simp [cfgLastC, hcl, args0]
    obtain ⟨m1, m2, m3, m4⟩ := hmid
    obtain ⟨p1, p2, p3, p4⟩ := parse_args_fields opts mid
    refine ⟨?_, ?_, ?_, ?_⟩
    · rw [p1]
      cases hcl : cliLast ("-n") opts with
      | some v => rfl
      | none => exact m1
    · rw [p2]
      cases hcl : cliLast ("-u") opts with
      | some v => rfl
      | none => exact m2
    · rw [p3]
      cases hcl : cliLast ("-p") opts with
      | some v => rfl
      | none => exact m3
    · rw [p4]
      cases hcl : cliLast ("-d") opts with
      | some v => rfl
      | none =>
        show mid.ftp_dir = Option.or none (cfgLastC (("destination_dir").data) content)
        rw [Option.none_or]
        exact m4

end Chicken
namespace Chicken

/-- Witness for config_precedence: a config file setting the host and the
remote directory, and a command line overriding the host. -/
theorem config_precedence_witness :
    resolveConfig contentW optsW = Except.ok argsW ∧
    (argsW.ftp_host = ((cliLast ("-n") optsW).getD
        ((cfgLastC (("destination_site").data) contentW).getD ("unknown"))) ∧
      argsW.ftp_user = ((cliLast ("-u") optsW).getD
        ((cfgLastC (("destination_login").data) contentW).getD ("none"))) ∧
      argsW.ftp_pass = ((cliLast ("-p") optsW).getD
        ((cfgLastC (("destination_password").data) contentW).getD ("none"))) ∧
      argsW.ftp_dir = Option.or (cliLast ("-d") optsW)
        (cfgLastC (("destination_dir").data) contentW)) :=
  ⟨by rfl, config_precedence contentW optsW argsW (by rfl)⟩

/- Facts about splitOnChar used for the config-file totality claim. -/

theorem splitOnChar_ne_nil (sep : Char) (l : List Char) : splitOnChar sep l ≠ [] := by
  cases l with
  | nil => exact fun h => List.noConfusion h
  | cons c t =>
    unfold splitOnChar
    by_cases hc : c = sep
    · rw [if_pos hc]
      exact fun h => List.noConfusion h
    · rw [if_neg hc]
      exact fun h => List.noConfusion h

theorem splitOnChar_len2 (sep : Char) (l : List Char) (h : sep ∈ l) :
    2 ≤ (splitOnChar sep l).length := by
  induction l with
  | nil => exact absurd h (List.not_mem_nil sep)
  | cons c t ih =>
    unfold splitOnChar
    by_cases hc : c = sep
    · rw [if_pos hc]
      have h1 : 1 ≤ (splitOnChar sep t).length := by
        cases hs : splitOnChar sep t with
        | nil => exact absurd hs (splitOnChar_ne_nil sep t)
        | cons x y => simp
      simp only [List.length_cons]
      omega
    · have ht : sep ∈ t := by
        cases List.mem_cons.mp h with
        | inl h2 => exact absurd h2.symm hc
        | inr h2 => exact h2
      rw [if_neg hc]
      have h2 := ih ht
      simp only [List.length_cons]
      have h3 : 1 ≤ (splitOnChar sep t).tail.length := by
        cases hs : splitOnChar sep t with
        | nil => exact absurd hs (splitOnChar_ne_nil sep t)
        | cons x y =>
          rw [hs] at h2
          simp only [List.length_cons] at h2
          simpa using h2
      omega

theorem get1_of_len2 {α : Type} (parts : List α) (h : 2 ≤ parts.length) :
    ∃ v, parts.get? 1 = some v := by
  cases parts with
  | nil => simp at h
  | cons x t =>
    cases t with
    | nil => simp at h
    | cons y t2 => exact ⟨y, rfl⟩

theorem applyParts_ok (a : Args) (parts : List (List Char)) (v : List Char)
    (hv : parts.get? 1 = some v) : ∃ c, applyParts a parts = Except.ok c := by
  unfold applyParts
  split_ifs <;> first
    | (rw [hv]; exact ⟨_, rfl⟩)
    | exact ⟨a, rfl⟩

/-- Claim C10: parse_config completes without raising for every readable
file in which each line that is neither blank nor starts with '#' contains
at least one '='; a non-skipped line with an unrecognised key leaves the
configuration unchanged; a missing config file is silently tolerated and
leaves the configuration unchanged. -/
theorem parse_config_total :
    (∀ lines (a : Args),
      (∀ line ∈ lines, stripPy line ≠ [] → line.headD ' ' ≠ '#' → ('=') ∈ line) →
      ∃ c, parse_config_lines a lines = Except.ok c) ∧
    (∀ (a : Args) line parts, lineParts line = some parts →
      parts.headD [] ≠ ("destination_site").data →
      parts.headD [] ≠ ("destination_login").data →
      parts.headD [] ≠ ("destination_password").data →
      parts.headD [] ≠ ("destination_dir").data →
      applyLine a line = Except.ok a) ∧
    (∀ a : Args, parse_config none a = Except.ok a) := by
  refine ⟨?_, ?_, ?_⟩
  · intro lines
    induction lines with
    | nil => exact fun a _ => ⟨a, rfl⟩
    | cons line rest ih =>
      intro a h
      have hline := h line (List.mem_cons_self line rest)
      have hrest : ∀ l2 ∈ rest, stripPy l2 ≠ [] → l2.headD ' ' ≠ '#' → ('=') ∈ l2 :=
        fun l2 hl2 => h l2 (List.mem_cons_of_mem line hl2)
      have hstep : ∃ a2, applyLine a line = Except.ok a2 := by
        unfold applyLine
        cases hlp : lineParts line with
        | none => exact ⟨a, rfl⟩
        | some parts =>
          have hcond : ¬(stripPy line = [] ∨ line.headD ' ' = '#') := by
            intro hc
            unfold lineParts at hlp
            rw [if_pos hc] at hlp
            exact Option.noConfusion hlp
          have heq : ('=') ∈ line :=
            hline (fun he => hcond (Or.inl he)) (fun hh => hcond (Or.inr hh))
          have heq2 : ('=') ∈ stripAllWS line :=
            List.mem_filter.mpr ⟨heq, by decide⟩
          have hparts : parts = splitOnChar ('=') (stripAllWS line) := by
            unfold lineParts at hlp
            rw [if_neg hcond] at hlp
            injection hlp with h2
            exact h2.symm
          have hlen : 2 ≤ parts.length := by
            rw [hparts]
            exact splitOnChar_len2 ('=') (stripAllWS line) heq2
          obtain ⟨v, hv⟩ := get1_of_len2 parts hlen
          exact applyParts_ok a parts v hv
      obtain ⟨a2, ha2⟩ := hstep
      obtain ⟨c, hc⟩ := ih a2 hrest
      refine ⟨c, ?_⟩
      rw [parse_config_lines, ha2]
      exact hc
  · intro a line parts hlp e1 e2 e3 e4
    unfold applyLine
    rw [hlp]
    show applyParts a parts = Except.ok a
    unfold applyParts
    rw [if_neg e1, if_neg e2, if_neg e3, if_neg e4]
  · exact fun a => rfl

/-- Witness for parse_config_total on a file with a comment line, a blank
line, an unrecognised key and a recognised key. -/
theorem parse_config_total_witness :
    (∀ line ∈ linesW, stripPy line ≠ [] → line.headD ' ' ≠ '#' → ('=') ∈ line) ∧
    (∃ c, parse_config_lines args0 linesW = Except.ok c) :=
  ⟨by decide, parse_config_total.1 linesW args0 (by decide)⟩

/-- Claim C6: encrypt_file derives its output path deterministically as the
input path with the fixed suffix ".pgp" appended, always attempts to remove
a pre-existing file at that output path before invoking the external tool
(the removal event precedes the command event in the trace), and the
outcome of that removal, in particular the absence of the file, has no
influence on the result; on success the returned path is exactly the
derived output path. -/
theorem encrypt_file_contract :
    ∀ (rd : String) (am rm rm2 : Bool) (sys : Nat) (infile : String),
      encrypt_file ⟨rd, am, rm, sys⟩ infile = encrypt_file ⟨rd, am, rm2, sys⟩ infile ∧
      (encrypt_file ⟨rd, am, rm, sys⟩ infile).2
        = [EncEvent.removeAttempt (infile ++ (".pgp")),
           EncEvent.runCmd (encCmd ⟨rd, am, rm, sys⟩ infile (infile ++ (".pgp")))] ∧
      (encrypt_file ⟨rd, am, rm, sys⟩ infile).1
        = (if sys = 0 then some (infile ++ (".pgp")) else none) :=
  fun _ _ _ _ _ _ => ⟨rfl, rfl, rfl⟩

/-- Claim C4, counterexample: send_file issues the STOR command on the full
local path exactly as given, not on its base name: for a-1/2/lha.pgp the
command is STOR a-1/2/lha.pgp, while a base-name store would issue
STOR lha.pgp. -/
theorem send_file_fullpath :
    (FtpEvent.stor (("STOR a-1/2/lha.pgp"))
      ∈ (send_file ftpAllOk ("a-1/2/lha.pgp") ("h") ("u") ("pw") none).2) ∧
    specSendStor ("a-1/2/lha.pgp") = ("STOR lha.pgp") ∧
    (("STOR a-1/2/lha.pgp") : String) ≠ ("STOR lha.pgp") := by
  refine ⟨by decide, by decide, by decide⟩

theorem splitOnChar_all_ne (sep : Char) (l : List Char)
    (h : l.all (fun c => !(c == sep)) = true) : splitOnChar sep l = [l] := by
  induction l with
  | nil => rfl
  | cons c t ih =>
    simp only [List.all_cons, Bool.and_eq_true] at h
    have hc : ¬(c = sep) := by
      intro he
      rw [he] at h
      simp at h
    unfold splitOnChar
    rw [if_neg hc, ih h.2]
    rfl

/-- Claim C4, amended: whenever send_file issues a STOR command, the stored
target is the given outpath verbatim ("STOR " followed by the full local
path); only when the path has no directory separator does this coincide
with a store under the base name. -/
theorem send_file_stor_verbatim :
    (∀ (env : FtpEnv) (outpath hst usr pw : String) (d : Option String) (cmd : String),
      FtpEvent.stor cmd ∈ (send_file env outpath hst usr pw d).2 →
      cmd = ("STOR ") ++ outpath) ∧
    (∀ outpath : String, outpath.data.all (fun c => !(c == '/')) = true →
      ("STOR ") ++ outpath = specSendStor outpath) := by
  constructor
  · intro env outpath hst usr pw d cmd hmem
    rcases env with ⟨o, cn, w, st, q⟩
    cases o <;> cases cn <;> cases w <;> cases st <;> cases q <;> cases d <;>
      simp_all [send_file]
  · intro outpath hns
    unfold specSendStor basename basenameL
    rw [splitOnChar_all_ne ('/') outpath.data hns]
    rfl

/-- Witness for send_file_stor_verbatim on a separator-free path. -/
theorem send_file_stor_verbatim_witness :
    (FtpEvent.stor (("STOR lha.pgp"))
      ∈ (send_file ftpAllOk ("lha.pgp") ("h") ("u") ("pw") none).2) ∧
    (("STOR lha.pgp") : String) = ("STOR ") ++ ("lha.pgp") ∧
    ((("lha.pgp") : String).data.all (fun c => !(c == '/')) = true) ∧
    ("STOR ") ++ (("lha.pgp") : String) = specSendStor ("lha.pgp") :=
  ⟨by decide,
   send_file_stor_verbatim.1 ftpAllOk ("lha.pgp") ("h") ("u") ("pw") none
     ("STOR lha.pgp") (by decide),
   by decide,
   send_file_stor_verbatim.2 ("lha.pgp") (by decide)⟩

/-- Claim C5, counterexample: on the transfer-failure path the opened local
file and the established FTP session are abandoned without any explicit
close or quit; even on the fully successful path the local file handle is
never explicitly closed. -/
theorem send_file_leak :
    (FtpEvent.openFile ("f.pgp")
      ∈ (send_file ftpStorFail ("f.pgp") ("h") ("u") ("pw") none).2) ∧
    (FtpEvent.connect ("h") ("u") ("pw")
      ∈ (send_file ftpStorFail ("f.pgp") ("h") ("u") ("pw") none).2) ∧
    (FtpEvent.closeFile ("f.pgp")
      ∉ (send_file ftpStorFail ("f.pgp") ("h") ("u") ("pw") none).2) ∧
    (FtpEvent.quit ∉ (send_file ftpStorFail ("f.pgp") ("h") ("u") ("pw") none).2) ∧
    ((send_file ftpStorFail ("f.pgp") ("h") ("u") ("pw") none).1 = false) ∧
    ((send_file ftpAllOk ("f.pgp") ("h") ("u") ("pw") none).1 = true) ∧
    (FtpEvent.closeFile ("f.pgp")
      ∉ (send_file ftpAllOk ("f.pgp") ("h") ("u") ("pw") none).2) := by
  refine ⟨by decide, by decide, by decide, by decide, by decide, by decide, by decide⟩

/-- Claim C5, amended: send_file never explicitly closes the opened local
file handle on any path, and it explicitly terminates the FTP session
(quit) exactly on the fully successful path; on open, connect,
directory-change, transfer or termination failure no explicit release is
performed, release being left to the runtime. -/
theorem send_file_release :
    ∀ (env : FtpEnv) (outpath hst usr pw : String) (d : Option String),
      (∀ q : String, FtpEvent.closeFile q ∉ (send_file env outpath hst usr pw d).2) ∧
      (FtpEvent.quit ∈ (send_file env outpath hst usr pw d).2
        ↔ (send_file env outpath hst usr pw d).1 = true) := by
  intro env outpath hst usr pw d
  rcases env with ⟨o, cn, w, st, q⟩
  constructor
  · intro qq
    cases o <;> cases cn <;> cases w <;> cases st <;> cases q <;> cases d <;>
      simp [send_file]
  · cases o <;> cases cn <;> cases w <;> cases st <;> cases q <;> cases d <;>
      simp [send_file]

/-- Witness for send_file_release: the clean termination happens on the
fully successful path. -/
theorem send_file_release_witness :
    ((send_file ftpAllOk ("f.pgp") ("h") ("u") ("pw") none).1 = true) ∧
    (FtpEvent.quit ∈ (send_file ftpAllOk ("f.pgp") ("h") ("u") ("pw") none).2) :=
  ⟨by decide,
   (send_file_release ftpAllOk ("f.pgp") ("h") ("u") ("pw") none).2.mpr (by decide)⟩

/-- Claim C2: files are processed strictly in command-line order and the
batch halts the moment any file fails at any stage: when every file of l1
fully succeeds and f fails, the batch outcome on l1 ++ f :: l2 is exactly
the outcome on l1 ++ [f], so no stage of any file after f is ever
attempted (zero encryption and upload invocations for them). -/
theorem batch_halts_on_failure (benv : BatchEnv) (cfg : Args) (l1 : List String)
    (f : String) (l2 : List String)
    (h1 : ∀ a ∈ l1, (processFile benv cfg a).stage = Stage.done)
    (h2 : (processFile benv cfg f).stage ≠ Stage.done) :
    runBatch benv cfg (l1 ++ f :: l2) = runBatch benv cfg (l1 ++ [f]) ∧
    runBatch benv cfg (l1 ++ f :: l2)
      = runBatch benv cfg l1 ++ [processFile benv cfg f] := by
  revert h1
  induction l1 with
  | nil =>
    intro h1
    constructor
    · show runBatch benv cfg (f :: l2) = runBatch benv cfg (f :: [])
      rw [runBatch, runBatch, if_neg h2, if_neg h2]
    · show runBatch benv cfg (f :: l2) = runBatch benv cfg [] ++ [processFile benv cfg f]
      rw [runBatch, runBatch, if_neg h2]
      rfl
  | cons x t ih =>
    intro h1
    have hx : (processFile benv cfg x).stage = Stage.done := h1 x (List.mem_cons_self x t)
    obtain ⟨ih1, ih2⟩ := ih (fun a ha => h1 a (List.mem_cons_of_mem x ha))
    constructor
    · show runBatch benv cfg (x :: (t ++ f :: l2)) = runBatch benv cfg (x :: (t ++ [f]))
      rw [runBatch, runBatch, if_pos hx, if_pos hx, ih1]
    · show runBatch benv cfg (x :: (t ++ f :: l2))
        = runBatch benv cfg (x :: t) ++ [processFile benv cfg f]
      rw [runBatch, if_pos hx, ih2, runBatch, if_pos hx, List.cons_append]

/-- Witness for batch_halts_on_failure: one succeeding file, then a file
with an invalid name, then a file that is never attempted. -/
theorem batch_halts_on_failure_witness :
    ((processFile benvAll args0 ("a-1.2.lha")).stage = Stage.done) ∧
    ((processFile benvAll args0 ("BAD")).stage ≠ Stage.done) ∧
    (runBatch benvAll args0 ([("a-1.2.lha"), ("BAD"), ("b-1.2.lha")])
      = runBatch benvAll args0 ([("a-1.2.lha"), ("BAD")])) := by
  refine ⟨by decide, by decide, ?_⟩
  have h := batch_halts_on_failure benvAll args0 ([("a-1.2.lha")]) ("BAD") ([("b-1.2.lha")])
    (by
      intro a ha
      rw [List.mem_singleton] at ha
      rw [ha]
      decide)
    (by decide)
  exact h.1

end Chicken

namespace Chicken

/-- Claim C8: per file the stages run in fixed order with none skipped or
retried: the existence pre-flight check and the regular-file pre-flight
check run before name validation and halt with the diagnostics "does not
exist" and "not a file" respectively, encryption is attempted only after
name validation succeeds, upload is attempted only after encryption
succeeds, and no stage is invoked more than once for the same file. -/
theorem pipeline_stage_order :
    ∀ (benv : BatchEnv) (cfg : Args) (arg : String),
      ((processFile benv cfg arg).valCount ≤ 1 ∧ (processFile benv cfg arg).encCount ≤ 1 ∧
        (processFile benv cfg arg).upCount ≤ 1) ∧
      ((processFile benv cfg arg).stage = Stage.failedExist
        ↔ benv.pathExists (normpath arg) = false) ∧
      ((processFile benv cfg arg).stage = Stage.failedExist →
        (processFile benv cfg arg).msgs = [("does not exist")] ∧
        (processFile benv cfg arg).valCount = 0 ∧ (processFile benv cfg arg).encCount = 0 ∧
        (processFile benv cfg arg).upCount = 0) ∧
      ((processFile benv cfg arg).stage = Stage.failedNotFile
        ↔ (benv.pathExists (normpath arg) = true ∧ benv.pathIsFile (normpath arg) = false)) ∧
      ((processFile benv cfg arg).stage = Stage.failedNotFile →
        (processFile benv cfg arg).msgs = [("not a file")] ∧
        (processFile benv cfg arg).valCount = 0 ∧ (processFile benv cfg arg).encCount = 0) ∧
      ((processFile benv cfg arg).valCount = 1 →
        benv.pathExists (normpath arg) = true ∧ benv.pathIsFile (normpath arg) = true) ∧
      ((processFile benv cfg arg).encCount = 1 →
        (processFile benv cfg arg).valCount = 1 ∧ valid_file_name (normpath arg) = true) ∧
      ((processFile benv cfg arg).upCount = 1 →
        (processFile benv cfg arg).encCount = 1 ∧
        (encrypt_file (benv.encE (normpath arg)) (normpath arg)).1.isSome = true) := by
  intro benv cfg arg
  unfold processFile
  by_cases he : benv.pathExists (normpath arg) = false
  · rw [if_pos he]
    simp [he]
  · have he2 : benv.pathExists (normpath arg) = true := by
      cases hb : benv.pathExists (normpath arg) with
      | false => exact absurd hb he
      | true => rfl
    rw [if_neg he]
    by_cases hf : benv.pathIsFile (normpath arg) = false
    · rw [if_pos hf]
      simp [he2, hf]
    · have hf2 : benv.pathIsFile (normpath arg) = true := by
        cases hb : benv.pathIsFile (normpath arg) with
        | false => exact absurd hb hf
        | true => rfl
      rw [if_neg hf]
      by_cases hv : valid_file_name (normpath arg) = false
      · rw [if_pos hv]
        simp [he2, hf2, hv]
      · have hv2 : valid_file_name (normpath arg) = true := by
          cases hb : valid_file_name (normpath arg) with
          | false => exact absurd hb hv
          | true => rfl
        rw [if_neg hv]
        cases henc : (encrypt_file (benv.encE (normpath arg)) (normpath arg)).1 with
        | none => simp [he2, hf2, hv2]
        | some outp =>
          by_cases hsend : (send_file (benv.ftpE outp) outp cfg.ftp_host cfg.ftp_user
              cfg.ftp_pass cfg.ftp_dir).1 = false
          · simp [he2, hf2, hv2, hsend]
          · simp [he2, hf2, hv2, hsend]

/-- Witness for pipeline_stage_order: a fully successful file, whose upload
implies its encryption succeeded. -/
theorem pipeline_stage_order_witness :
    ((processFile benvAll args0 ("a-1.2.lha")).upCount = 1) ∧
    ((processFile benvAll args0 ("a-1.2.lha")).encCount = 1 ∧
      (encrypt_file (benvAll.encE (normpath ("a-1.2.lha")))
        (normpath ("a-1.2.lha"))).1.isSome = true) :=
  ⟨by decide,
   (pipeline_stage_order benvAll args0 ("a-1.2.lha")).2.2.2.2.2.2.2 (by decide)⟩

/- Groups captured by a successful match are non-empty runs over their
   character classes. -/
theorem tryGreedy_some_all {α : Type} (p : Char → Bool) (l : List Char)
    (cont : List Char → List Char → Option α) (x : α)
    (h : tryGreedy p l cont = some x) :
    ∃ k, 1 ≤ k ∧ (l.take k).all p = true ∧ cont (l.take k) (l.drop k) = some x := by
  unfold tryGreedy at h
  obtain ⟨k, h1, h2, h3⟩ := tryFrom_some_exists l cont ((l.takeWhile p).length) x h
  exact ⟨k, h1, take_all_of_le_takeWhile p l k h2, h3⟩

theorem take_ne_nil_of_drop_cons (l : List Char) (k : Nat) (c : Char) (t : List Char)
    (hk : 1 ≤ k) (hd : l.drop k = c :: t) : l.take k ≠ [] := by
  intro hte
  cases l with
  | nil => simp at hd
  | cons a b =>
    cases k with
    | zero => omega
    | succ k => simp at hte

theorem matchTail_groups (l v r : List Char) (h : matchTail l = some (v, r)) :
    v ≠ [] ∧ v.all isDigitChar = true ∧ r ≠ [] ∧ r.all isDigitChar = true := by
  obtain ⟨k, hk1, hall, hcont⟩ := tryGreedy_some_all isDigitChar l contVer (v, r) h
  unfold contVer at hcont
  cases hd : l.drop k with
  | nil =>
    rw [hd] at hcont
    exact Option.noConfusion hcont
  | cons c1 rest2 =>
    rw [hd] at hcont
    replace hcont : (if isDotChar c1 = true
        then tryGreedy isDigitChar rest2 (contRev (l.take k)) else none) = some (v, r) := hcont
    by_cases hdot : isDotChar c1 = true
    · rw [if_pos hdot] at hcont
      obtain ⟨k2, hk21, hall2, hcont2⟩ :=
        tryGreedy_some_all isDigitChar rest2 (contRev (l.take k)) (v, r) hcont
      unfold contRev at hcont2
      cases hd2 : rest2.drop k2 with
      | nil =>
        rw [hd2] at hcont2
        exact Option.noConfusion hcont2
      | cons c2 rest3 =>
        rw [hd2] at hcont2
        replace hcont2 : (if isDotChar c2 = true
            then (match rest3 with
              | 'l' :: 'h' :: 'a' :: _ => some (l.take k, rest2.take k2)
              | _ => none)
            else none) = some (v, r) := hcont2
        by_cases hdot2 : isDotChar c2 = true
        · rw [if_pos hdot2] at hcont2
          split at hcont2
          · injection hcont2 with h2
            rw [Prod.mk.injEq] at h2
            obtain ⟨hv, hr⟩ := h2
            subst hv
            subst hr
            exact ⟨take_ne_nil_of_drop_cons l k c1 rest2 hk1 hd, hall,
              take_ne_nil_of_drop_cons rest2 k2 c2 _ hk21 hd2, hall2⟩
          · exact Option.noConfusion hcont2
        · rw [if_neg hdot2] at hcont2
          exact Option.noConfusion hcont2
    · rw [if_neg hdot] at hcont
      exact Option.noConfusion hcont

theorem pyMatch_groups (l a v r : List Char) (h : pyMatch l = some (a, v, r)) :
    a ≠ [] ∧ a.all isLabelChar = true ∧ v ≠ [] ∧ v.all isDigitChar = true ∧
    r ≠ [] ∧ r.all isDigitChar = true := by
  obtain ⟨k, hk1, hall, hcont⟩ := tryGreedy_some_all isLabelChar l contLabel (a, v, r) h
  unfold contLabel at hcont
  split at hcont
  · rename_i rest1 heq
    cases hmt : matchTail rest1 with
    | none =>
      rw [hmt] at hcont
      exact Option.noConfusion hcont
    | some vr =>
      rw [hmt] at hcont
      obtain ⟨v2, r2⟩ := vr
      injection hcont with h2
      rw [Prod.mk.injEq] at h2
      obtain ⟨ha, hvr⟩ := h2
      rw [Prod.mk.injEq] at hvr
      obtain ⟨hv, hr⟩ := hvr
      subst ha
      subst hv
      subst hr
      obtain ⟨g1, g2, g3, g4⟩ := matchTail_groups rest1 v2 r2 hmt
      exact ⟨take_ne_nil_of_drop_cons l k '-' rest1 hk1 heq, hall, g1, g2, g3, g4⟩
  · exact Option.noConfusion hcont

theorem not_mem_of_all_ne (p : Char → Bool) (l : List Char) (c : Char)
    (hall : l.all p = true) (hp : p c = false) : c ∉ l := by
  intro hm
  rw [List.all_eq_true] at hall
  have h2 := hall c hm
  rw [hp] at h2
  exact Bool.noConfusion h2

/-- Claim C9, amended: the main loop applies name validation to the whole
normalized input path, not to its base name, and a directory separator can
never occur inside the matched label or the captured numeric groups; the
two single-character wildcard positions of the pattern and the unmatched
tail can however hold '/', so some paths whose normalized form contains a
separator do validate and proceed to encryption and upload (see the
counterexample theorem). -/
theorem validation_on_full_path :
    (∀ (benv : BatchEnv) (cfg : Args) (arg : String),
      (processFile benv cfg arg).stage = Stage.failedName
        ↔ (benv.pathExists (normpath arg) = true ∧ benv.pathIsFile (normpath arg) = true ∧
           valid_file_name (normpath arg) = false)) ∧
    (∀ (l a v r : List Char), pyMatch l = some (a, v, r) →
      (('/') ∉ a ∧ ('/') ∉ v ∧ ('/') ∉ r)) := by
  constructor
  · intro benv cfg arg
    unfold processFile
    by_cases he : benv.pathExists (normpath arg) = false
    · rw [if_pos he]
      simp [he]
    · have he2 : benv.pathExists (normpath arg) = true := by
        cases hb : benv.pathExists (normpath arg) with
        | false => exact absurd hb he
        | true => rfl
      rw [if_neg he]
      by_cases hf : benv.pathIsFile (normpath arg) = false
      · rw [if_pos hf]
        simp [he2, hf]
      · have hf2 : benv.pathIsFile (normpath arg) = true := by
          cases hb : benv.pathIsFile (normpath arg) with
          | false => exact absurd hb hf
          | true => rfl
        rw [if_neg hf]
        by_cases hv : valid_file_name (normpath arg) = false
        · rw [if_pos hv]
          simp [he2, hf2, hv]
        · rw [if_neg hv]
          cases henc : (encrypt_file (benv.encE (normpath arg)) (normpath arg)).1 with
          | none => simp [he2, hf2, hv]
          | some outp =>
            by_cases hsend : (send_file (benv.ftpE outp) outp cfg.ftp_host cfg.ftp_user
                cfg.ftp_pass cfg.ftp_dir).1 = false
            · simp [he2, hf2, hv, hsend]
            · simp [he2, hf2, hv, hsend]
  · intro l a v r h
    obtain ⟨_, ha, _, hv, _, hr⟩ := pyMatch_groups l a v r h
    exact ⟨not_mem_of_all_ne isLabelChar a ('/') ha (by decide),
      not_mem_of_all_ne isDigitChar v ('/') hv (by decide),
      not_mem_of_all_ne isDigitChar r ('/') hr (by decide)⟩

/-- Witness for validation_on_full_path: a path through a directory whose
name part does not match halts at validation, and a successful match holds
no separator in its label or groups. -/
theorem validation_on_full_path_witness :
    ((processFile benvAll args0 ("dir-999/x")).stage = Stage.failedName) ∧
    (pyMatch (("a-1.2.lha").data)
      = some ((("a").data), (("1").data), (("2").data))) ∧
    (('/') ∉ (("a").data) ∧ ('/') ∉ (("1").data) ∧ ('/') ∉ (("2").data)) :=
  ⟨(validation_on_full_path.1 benvAll args0 ("dir-999/x")).mpr (by decide),
   by decide,
   validation_on_full_path.2 (("a-1.2.lha").data) (("a").data) (("1").data) (("2").data)
     (by decide)⟩

/-- Claim C9, counterexample: the path a-1/2/lha keeps its directory
separators under normalisation, yet validates (both separators land on the
wildcard separator positions of the pattern), so the file is encrypted and
uploaded instead of halting the batch at the validation stage. -/
theorem path_with_sep_validates :
    valid_file_name ("a-1/2/lha") = true ∧
    normpath ("a-1/2/lha") = ("a-1/2/lha") ∧
    (('/') ∈ ("a-1/2/lha").data) ∧
    (processFile benvAll args0 ("a-1/2/lha")).stage = Stage.done ∧
    (processFile benvAll args0 ("a-1/2/lha")).encCount = 1 ∧
    (processFile benvAll args0 ("a-1/2/lha")).upCount = 1 := by
  refine ⟨by decide, by decide, by decide, by decide, by decide, by decide⟩

end Chicken
